import Mathlib

/-!
Verification development for the cosmos-sdk module-ABI core (RFC 003 /
design spec) and the `x/circuit` message server.

The `Circuit` namespace is a shallow embedding of
`x/circuit/keeper/msg_server.go`.  The `Abi` namespace models the
descriptor-exchange, provider-registry, dependency-graph resolution,
linking and unary-dispatch layers, whose implementation is not part of
the excerpted source; those definitions are modelled from the design
spec's words, as marked on each doc comment.
-/

namespace Circuit

/-- Permission levels of `x/circuit` (`types.Permissions_LEVEL_*`). -/
inductive Level
  | noneUnspecified
  | someMsgs
  | allMsgs
  | superAdmin
deriving DecidableEq, Repr

/-- `types.Permissions`: a level plus the list of limited msg type URLs. -/
structure Permissions where
  level : Level
  limitTypeUrls : List String
deriving DecidableEq, Repr

/-- The state a `msgServer` handler touches: the module authority address,
the stored per-account permissions, and the set of disabled msg type URLs
(the keys written with `types.CreateDisableMsgPrefix`). -/
structure State where
  authority : String
  perms : List (String × Permissions)
  disableList : List String
deriving DecidableEq, Repr

/-- Keeper accessor `GetPermissions` (accessor body not in the excerpt):
reads the stored permissions for an address; a missing entry unmarshals to
the zero value (level `LEVEL_NONE_UNSPECIFIED`, no limit URLs). -/
def getPermissions (st : State) (addr : String) : Permissions :=
  match st.perms.lookup addr with
  | some p => p
  | none => ⟨Level.noneUnspecified, []⟩

/-- Keeper accessor `IsAllowed`: a msg type URL is allowed when it is not
in the disable list. -/
def isAllowed (st : State) (url : String) : Bool :=
  !(decide (url ∈ st.disableList))

/-- `store.Set(types.CreateDisableMsgPrefix(url), 0x01)`: mark a msg type
URL as disabled. -/
def disableMsg (st : State) (url : String) : State :=
  if url ∈ st.disableList then st
  else { st with disableList := st.disableList ++ [url] }

/-- Keeper accessor `EnableMsg`: remove a msg type URL from the disable
list. -/
def enableMsg (st : State) (url : String) : State :=
  { st with disableList := st.disableList.filter (fun u => decide (u ≠ url)) }

/-- The loop body shared by the `LEVEL_SUPER_ADMIN`/authority case and the
`LEVEL_ALL_MSGS` case of `TripCircuitBreaker`: each requested URL must
still be allowed, then it is added to the disable list. -/
def tripAllLoop : State → List String → Except String State
  | st, [] => .ok st
  | st, url :: rest =>
      if !(isAllowed st url) then
        .error ("message " ++ url ++ " is already disabled")
      else
        tripAllLoop (disableMsg st url) rest

/-- The inner loop of the `LEVEL_SOME_MSGS` case of `TripCircuitBreaker`:
iterate over `perms.LimitTypeUrls`; a matching entry disables the URL, the
first non-matching entry returns an error. -/
def tripSomeInner (url : String) : State → List String → Except String State
  | st, [] => .ok st
  | st, l :: rest =>
      if url = l then tripSomeInner url (disableMsg st url) rest
      else .error ("account does not have permission to trip circuit breaker for message " ++ url)

/-- The outer loop of the `LEVEL_SOME_MSGS` case of `TripCircuitBreaker`. -/
def tripSomeLoop (limits : List String) : State → List String → Except String State
  | st, [] => .ok st
  | st, url :: rest =>
      if !(isAllowed st url) then
        .error ("message " ++ url ++ " is already disabled")
      else
        match tripSomeInner url st limits with
        | .ok st' => tripSomeLoop limits st' rest
        | .error e => .error e

/-- `msgServer.TripCircuitBreaker`: switch on the caller's stored
permission level (with the module authority taking the first case
regardless of its stored level). -/
def tripCircuitBreaker (st : State) (authority : String) (msgTypeUrls : List String) :
    Except String State :=
  if (getPermissions st authority).level = Level.superAdmin ∨ authority = st.authority then
    tripAllLoop st msgTypeUrls
  else if (getPermissions st authority).level = Level.allMsgs then
    tripAllLoop st msgTypeUrls
  else if (getPermissions st authority).level = Level.someMsgs then
    tripSomeLoop (getPermissions st authority).limitTypeUrls st msgTypeUrls
  else
    .error "account does not have permission to trip circuit breaker"

/-- The `LEVEL_SOME_MSGS` loop of `ResetCircuitBreaker`: each requested
URL must be in `accountPerms.LimitTypeUrls` (`stringInSlice`), then it is
re-enabled. -/
def resetSomeLoop (limits : List String) : State → List String → Except String State
  | st, [] => .ok st
  | st, url :: rest =>
      if url ∉ limits then
        .error ("account does not have permission to reset the specific msgTypeURL " ++ url)
      else
        resetSomeLoop limits (enableMsg st url) rest

/-- The `LEVEL_ALL_MSGS` loop of `ResetCircuitBreaker` (the guard is
transcribed as written in the source: `!IsAllowed` raises the error). -/
def resetAllLoop : State → List String → Except String State
  | st, [] => .ok st
  | st, url :: rest =>
      if !(isAllowed st url) then
        .error ("msgTypeURL " ++ url ++ " is not disabled")
      else
        resetAllLoop (enableMsg st url) rest

/-- `msgServer.ResetCircuitBreaker`: reject callers whose stored level is
neither `LEVEL_ALL_MSGS` nor `LEVEL_SOME_MSGS`, then run the per-level
loop. -/
def resetCircuitBreaker (st : State) (authority : String) (msgTypeUrls : List String) :
    Except String State :=
  if (getPermissions st authority).level ≠ Level.allMsgs ∧
      (getPermissions st authority).level ≠ Level.someMsgs then
    .error "account does not have permission to reset the circuit breaker"
  else if (getPermissions st authority).level = Level.someMsgs then
    resetSomeLoop (getPermissions st authority).limitTypeUrls st msgTypeUrls
  else if (getPermissions st authority).level = Level.allMsgs then
    resetAllLoop st msgTypeUrls
  else
    .ok st

/-- The state observed after a handler result: an error reverts to the
pre-call state (failed messages leave the store untouched). -/
def resultState (st : State) (r : Except String State) : State :=
  match r with
  | .ok st' => st'
  | .error _ => st

end Circuit

namespace Abi

/-- Modelled from the spec: the typed capability kinds of provider inputs
and outputs (`Input.Type`/`Output.Type` of RFC 003) — a fully-qualified
service name, or an event-listener type. -/
inductive Kind
  | service (name : String)
  | eventListener (name : String)
deriving DecidableEq, Repr

/-- Whether a kind is a ServiceType (event listeners are the fan-in
exception to output uniqueness). -/
def Kind.isService : Kind → Bool
  | .service _ => true
  | .eventListener _ => false

/-- Modelled from the spec: `InputSpec { kind, optional }`. -/
structure InputSpec where
  kind : Kind
  optional : Bool
deriving DecidableEq, Repr

/-- Modelled from the spec: `OutputSpec { kind }`. -/
structure OutputSpec where
  kind : Kind
deriving DecidableEq, Repr

/-- Modelled from the spec: `ProviderInfo { inputs, outputs }`, in declared
order. -/
structure ProviderInfo where
  inputs : List InputSpec
  outputs : List OutputSpec
deriving DecidableEq, Repr

/-- Modelled from the spec: `ModuleInfo { config_type, providers }`. -/
structure ModuleInfo where
  configType : String
  providers : List ProviderInfo
deriving DecidableEq, Repr

/-- Modelled from the spec: a registration set — the loaded code units in
load order, each holding its modules in registration order (the Provider
Registry is append-only, so declaration order is exactly this nesting). -/
def Registry := List (List ModuleInfo)

/-- Modelled from the spec: all providers in declaration-derived order —
unit load order, then within-unit module order, then within-module
provider order. A provider's index in this list is its identity in the
resolver. -/
def allProviders (r : Registry) : List ProviderInfo :=
  (r.map (fun unit => (unit.map (fun m => m.providers)).flatten)).flatten

/-- Modelled from the spec: the providers (by declaration index) declaring
an output of the given kind. -/
def producersOf (provs : List ProviderInfo) (k : Kind) : List Nat :=
  (provs.enum.filter (fun ip => ip.2.outputs.any (fun o => decide (o.kind = k)))).map (·.1)

/-- All declared output kinds, in declaration order. -/
def outputKinds (provs : List ProviderInfo) : List Kind :=
  (provs.map (fun p => p.outputs.map (fun o => o.kind))).flatten

/-- Modelled from the spec: the duplicate-production check — the first
ServiceType declared as an output by two or more providers (event-listener
outputs are exempt: fan-in is permitted). -/
def findDuplicateOutput (provs : List ProviderInfo) : Option Kind :=
  (outputKinds provs).find? (fun k => k.isService && decide (2 ≤ (producersOf provs k).length))

/-- All non-optional input kinds, in declaration order. -/
def requiredInputKinds (provs : List ProviderInfo) : List Kind :=
  (provs.map (fun p => (p.inputs.filter (fun i => !i.optional)).map (fun i => i.kind))).flatten

/-- Modelled from the spec: the missing-producer check — the first
non-optional input kind with zero producers among registered OutputSpecs. -/
def findMissingInput (provs : List ProviderInfo) : Option Kind :=
  (requiredInputKinds provs).find? (fun k => (producersOf provs k).isEmpty)

/-- Modelled from the spec: the fatal resolution-time errors. -/
inductive ResolveError
  | duplicateOutput (kind : Kind)
  | missingInput (kind : Kind)
  | cyclic (remaining : List Nat)
deriving DecidableEq, Repr

/-- Modelled from the spec: Kahn eligibility — a provider may be selected
once, for every one of its inputs, every producer of that input's kind has
already been resolved (an optional input with no producer in the graph
constrains nothing; an optional input whose producer exists must wait for
it). -/
def eligible (provs : List ProviderInfo) (resolved : List Nat) (p : ProviderInfo) : Bool :=
  p.inputs.all (fun inp => (producersOf provs inp.kind).all (fun j => decide (j ∈ resolved)))

/-- Modelled from the spec: Kahn's algorithm with deterministic
tie-breaking. Each round selects, in declaration order, every pending
provider that is eligible; a round in which nothing is selectable fails
with `CyclicDependencyError` naming the unresolved set. Returns the
selection rounds; fuel bounds the number of rounds by the pending count. -/
def kahnRounds (provs : List ProviderInfo) :
    Nat → List (Nat × ProviderInfo) → List Nat → Except ResolveError (List (List Nat))
  | _, [], _ => .ok []
  | 0, ip :: pending, _ => .error (.cyclic ((ip :: pending).map (·.1)))
  | fuel + 1, ip :: pending, resolved =>
      if ((ip :: pending).filter (fun q => eligible provs resolved q.2)).isEmpty then
        .error (.cyclic ((ip :: pending).map (·.1)))
      else
        match kahnRounds provs fuel
            ((ip :: pending).filter (fun q => !(eligible provs resolved q.2)))
            (resolved ++ ((ip :: pending).filter (fun q => eligible provs resolved q.2)).map (·.1)) with
        | .ok rounds =>
            .ok (((ip :: pending).filter (fun q => eligible provs resolved q.2)).map (·.1) :: rounds)
        | .error e => .error e

/-- Modelled from the spec: graph resolution over a provider list — the
producer checks, then Kahn's algorithm; the execution order is the
concatenation of the selection rounds. -/
def resolveProviders (provs : List ProviderInfo) : Except ResolveError (List Nat) :=
  match findDuplicateOutput provs with
  | some k => .error (.duplicateOutput k)
  | none =>
      match findMissingInput provs with
      | some k => .error (.missingInput k)
      | none =>
          match kahnRounds provs provs.length provs.enum [] with
          | .ok rounds => .ok rounds.flatten
          | .error e => .error e

/-- The selection rounds of a registry's resolution, after the producer
checks. -/
def resolveRounds (r : Registry) : Except ResolveError (List (List Nat)) :=
  kahnRounds (allProviders r) (allProviders r).length (allProviders r).enum []

/-- Modelled from the spec: resolution of the full Provider Registry. -/
def resolve (r : Registry) : Except ResolveError (List Nat) :=
  resolveProviders (allProviders r)

/-- The dependency relation induced by input/output kind matching:
`dependsOn provs i j` holds when provider `j` declares an input whose kind
provider `i` produces — covering both required inputs and optional inputs
whose producer exists in the graph. -/
def dependsOn (provs : List ProviderInfo) (i j : Nat) : Prop :=
  ∃ p, provs.get? j = some p ∧ ∃ inp ∈ p.inputs, i ∈ producersOf provs inp.kind

/-- Modelled from the spec: link-time errors of the Module Linker. -/
inductive LinkError
  | resolveFailed (e : ResolveError)
  | outputArity (provider : Nat)
deriving DecidableEq, Repr

/-- Modelled from the spec: the Module Linker's provider loop. A provider
implementation is abstracted by the number of `register_output`
invocations it performs (`arity`); a count different from the provider's
declared output count is `OutputArityError` and linking aborts. Returns
the providers actually invoked, in order, together with the error if any. -/
def linkLoop (provs : List ProviderInfo) (arity : Nat → Nat) :
    List Nat → List Nat → List Nat × Option LinkError
  | invoked, [] => (invoked, none)
  | invoked, i :: rest =>
      if arity i = (provs.getD i ⟨[], []⟩).outputs.length then
        linkLoop provs arity (invoked ++ [i]) rest
      else
        (invoked ++ [i], some (.outputArity i))

/-- Modelled from the spec: linking — resolve, then run providers in
resolver order; a resolution error invokes no provider. -/
def link (r : Registry) (arity : Nat → Nat) : List Nat × Option LinkError :=
  match resolve r with
  | .error e => ([], some (.resolveFailed e))
  | .ok order => linkLoop (allProviders r) arity [] order

/-- Modelled from the spec: merge one delivered descriptor (qualified
name, shape) into the catalogue keyed by qualified name; a name collision
with a different shape is a fatal `DescriptorConflict`. -/
def mergeDescriptor (cat : List (String × String)) (d : String × String) :
    Except String (List (String × String)) :=
  match cat.lookup d.1 with
  | some s => if s = d.2 then .ok cat else .error ("DescriptorConflict: " ++ d.1)
  | none => .ok (cat ++ [d])

/-- Modelled from the spec: Descriptor Exchange — fold every delivered
descriptor, in delivery order, into the global catalogue. -/
def mergeAll (cat : List (String × String)) :
    List (String × String) → Except String (List (String × String))
  | [] => .ok cat
  | d :: rest =>
      match mergeDescriptor cat d with
      | .ok cat' => mergeAll cat' rest
      | .error e => .error e

/-- A delivered descriptor set is conflict-free when any two descriptors
sharing a qualified name have the same shape. -/
def ConflictFree (l : List (String × String)) : Prop :=
  ∀ n s s', (n, s) ∈ l → (n, s') ∈ l → s = s'

/-- Modelled from the spec: the fixed set of call-time error codes of the
unary method ABI. -/
inductive ErrCode
  | decodeError
  | bufferTooSmall
  | notFound
  | permissionDenied
  | applicationError
deriving DecidableEq, Repr

/-- The negative i32 value of each pre-defined error code. -/
def ErrCode.toInt : ErrCode → Int
  | .decodeError => -1
  | .bufferTooSmall => -2
  | .notFound => -3
  | .permissionDenied => -4
  | .applicationError => -5

/-- The set of pre-defined error-code values. -/
def errCodeValues : List Int := [-1, -2, -3, -4, -5]

/-- Modelled from the spec: the default response-buffer capacity (64 KiB),
used unless shape metadata declares another bound. -/
def defaultResponseCapacity : Nat := 65536

/-- The bytes of a human-readable message written into the response
buffer. -/
def strBytes (s : String) : List Nat :=
  s.data.map (fun c => c.toNat)

/-- Modelled from the spec: the abstract behavior of a unary method
implementation — on a given encoded request it either produces an encoded
response or an error code with a human-readable message. -/
def MethodBehavior : Type :=
  List Nat → Except (ErrCode × String) (List Nat)

/-- Modelled from the spec: the caller-side observation of a unary call —
the 32-bit signed return value and the contents of the caller-allocated
response buffer. A response larger than the supplied capacity is
`BufferTooSmall`; a negative return writes the (truncated) message, not
response data. -/
def unaryCall (impl : MethodBehavior) (req : List Nat) (capacity : Nat) :
    Int × List Nat :=
  match impl req with
  | .ok res =>
      if res.length ≤ capacity then ((res.length : Int), res)
      else (ErrCode.bufferTooSmall.toInt, (strBytes "buffer too small").take capacity)
  | .error (c, m) => (c.toInt, (strBytes m).take capacity)

/-- Whether a unary call succeeds: the implementation produced a response
that fits the supplied capacity. -/
def callSucceeds (impl : MethodBehavior) (req : List Nat) (capacity : Nat) : Bool :=
  match impl req with
  | .ok res => decide (res.length ≤ capacity)
  | .error _ => false

/-- Response bytes considered written, given a return value: a negative
code writes none. -/
def bytesWritten (ret : Int) : Nat :=
  if 0 ≤ ret then ret.toNat else 0

end Abi

namespace Circuit

theorem isAllowed_disableMsg (st : State) (url u : String)
    (hu : isAllowed st u = true) (hne : u ≠ url) :
    isAllowed (disableMsg st url) u = true := by
  simp only [isAllowed, Bool.not_eq_true', decide_eq_false_iff_not] at hu
  by_cases h : url ∈ st.disableList
  · simp [disableMsg, h, isAllowed, hu]
  · simp [disableMsg, h, isAllowed, List.mem_append, hu, hne]

theorem tripAllLoop_ok : ∀ (urls : List String) (st : State),
    urls.Nodup → (∀ u ∈ urls, isAllowed st u = true) →
    ∃ st', tripAllLoop st urls = .ok st'
  | [], st, _, _ => ⟨st, rfl⟩
  | url :: rest, st, hnd, hall => by
      have hurl : isAllowed st url = true := hall url (List.mem_cons_self _ _)
      have hnd' := List.nodup_cons.mp hnd
      have hrest : ∀ u ∈ rest, isAllowed (disableMsg st url) u = true := fun u hu =>
        isAllowed_disableMsg st url u (hall u (List.mem_cons_of_mem _ hu))
          (fun h => hnd'.1 (h ▸ hu))
      obtain ⟨st', h⟩ := tripAllLoop_ok rest (disableMsg st url) hnd'.2 hrest
      exact ⟨st', by simp [tripAllLoop, hurl, h]⟩

theorem tripSomeInner_error (u : String) : ∀ (limits : List String) (st : State),
    (∃ l ∈ limits, l ≠ u) → ∃ e, tripSomeInner u st limits = .error e
  | [], _, h => absurd h (by simp)
  | l :: rest, st, h => by
      by_cases hl : u = l
      · subst hl
        obtain ⟨l', hl', hne⟩ := h
        have hmem : l' ∈ rest := by
          rcases List.mem_cons.mp hl' with h1 | h1
          · exact absurd h1 hne
          · exact h1
        obtain ⟨e, he⟩ := tripSomeInner_error u rest (disableMsg st u) ⟨l', hmem, hne⟩
        exact ⟨e, by simp [tripSomeInner, he]⟩
      · exact ⟨"account does not have permission to trip circuit breaker for message " ++ u,
          by simp [tripSomeInner, hl]⟩

theorem tripSomeInner_ok_of_all (u : String) : ∀ (limits : List String) (st : State),
    (∀ l ∈ limits, l = u) → ∃ st', tripSomeInner u st limits = .ok st'
  | [], st, _ => ⟨st, rfl⟩
  | l :: rest, st, h => by
      have hl : u = l := (h l (List.mem_cons_self _ _)).symm
      subst hl
      obtain ⟨st', hst'⟩ := tripSomeInner_ok_of_all u rest (disableMsg st u)
        (fun l' hl' => h l' (List.mem_cons_of_mem _ hl'))
      exact ⟨st', by simp [tripSomeInner, hst']⟩

theorem tripSomeInner_eq_of_ok (u : String) : ∀ (limits : List String) (st st' : State),
    tripSomeInner u st limits = .ok st' → ∀ l ∈ limits, l = u
  | [], _, _, _ => by simp
  | l :: rest, st, st', h => by
      by_cases hl : u = l
      · subst hl
        intro l' hl'
        rcases List.mem_cons.mp hl' with h1 | h1
        · exact h1
        · exact tripSomeInner_eq_of_ok u rest (disableMsg st u) st'
            (by simpa [tripSomeInner] using h) l' h1
      · exact absurd h (by simp [tripSomeInner, hl])

theorem tripSomeLoop_error (limits : List String) : ∀ (urls : List String) (st : State),
    (∃ u ∈ urls, ∃ l ∈ limits, l ≠ u) → ∃ e, tripSomeLoop limits st urls = .error e
  | [], _, h => absurd h (by simp)
  | url :: rest, st, h => by
      cases ha : isAllowed st url with
      | false =>
          exact ⟨"message " ++ url ++ " is already disabled", by simp [tripSomeLoop, ha]⟩
      | true =>
          by_cases hm : ∃ l ∈ limits, l ≠ url
          · obtain ⟨e, he⟩ := tripSomeInner_error url limits st hm
            exact ⟨e, by simp [tripSomeLoop, ha, he]⟩
          · push_neg at hm
            obtain ⟨st1, h1⟩ := tripSomeInner_ok_of_all url limits st hm
            have hrest : ∃ u ∈ rest, ∃ l ∈ limits, l ≠ u := by
              obtain ⟨u, hu, l, hl, hne⟩ := h
              rcases List.mem_cons.mp hu with h2 | h2
              · exact absurd (hm l hl) (h2 ▸ hne)
              · exact ⟨u, h2, l, hl, hne⟩
            obtain ⟨e, he⟩ := tripSomeLoop_error limits rest st1 hrest
            exact ⟨e, by simp [tripSomeLoop, ha, h1, he]⟩

theorem tripSomeLoop_eq_of_ok (limits : List String) :
    ∀ (urls : List String) (st st' : State),
    tripSomeLoop limits st urls = .ok st' → ∀ u ∈ urls, ∀ l ∈ limits, l = u
  | [], _, _, _ => by simp
  | url :: rest, st, st', h => by
      cases ha : isAllowed st url with
      | false => exact absurd h (by simp [tripSomeLoop, ha])
      | true =>
          cases hi : tripSomeInner url st limits with
          | error e => exact absurd h (by simp [tripSomeLoop, ha, hi])
          | ok st1 =>
              intro u hu l hl
              rcases List.mem_cons.mp hu with h2 | h2
              · exact h2 ▸ tripSomeInner_eq_of_ok url limits st st1 hi l hl
              · exact tripSomeLoop_eq_of_ok limits rest st1 st'
                  (by simpa [tripSomeLoop, ha, hi] using h) u h2 l hl

end Circuit

/-- C9: `ResetCircuitBreaker` errors and re-enables no message for every
caller whose stored permission level is neither `LEVEL_ALL_MSGS` nor
`LEVEL_SOME_MSGS` (in particular `LEVEL_SUPER_ADMIN` holders and the
module authority with no elevated stored level), even though such a caller
(super admin or the authority) can trip the breaker via
`TripCircuitBreaker`. -/
theorem Circuit.resetCircuitBreaker_unauthorized
    (st : Circuit.State) (addr : String) (urls : List String)
    (h1 : (Circuit.getPermissions st addr).level ≠ Circuit.Level.allMsgs)
    (h2 : (Circuit.getPermissions st addr).level ≠ Circuit.Level.someMsgs) :
    (∃ e, Circuit.resetCircuitBreaker st addr urls = Except.error e) ∧
    Circuit.resultState st (Circuit.resetCircuitBreaker st addr urls) = st ∧
    (((Circuit.getPermissions st addr).level = Circuit.Level.superAdmin ∨ addr = st.authority) →
      urls.Nodup → (∀ u ∈ urls, Circuit.isAllowed st u = true) →
      ∃ st', Circuit.tripCircuitBreaker st addr urls = Except.ok st') := by
  have hr : Circuit.resetCircuitBreaker st addr urls =
      Except.error "account does not have permission to reset the circuit breaker" := by
    unfold Circuit.resetCircuitBreaker
    rw [if_pos ⟨h1, h2⟩]
  refine ⟨⟨_, hr⟩, by rw [hr]; rfl, fun hcase hnd hall => ?_⟩
  have htrip : Circuit.tripCircuitBreaker st addr urls = Circuit.tripAllLoop st urls := by
    unfold Circuit.tripCircuitBreaker
    rw [if_pos hcase]
  rw [htrip]
  exact Circuit.tripAllLoop_ok urls st hnd hall

/-- Witness for C9 at a concrete state: account `sue` holds
`LEVEL_SUPER_ADMIN`, message `m` is tripped; `sue` cannot reset but can
trip `x`. -/
theorem Circuit.resetCircuitBreaker_unauthorized_witness :
    (∃ e, Circuit.resetCircuitBreaker
        ⟨"auth", [("sue", ⟨Circuit.Level.superAdmin, []⟩)], ["m"]⟩ "sue" ["x"] =
        Except.error e) ∧
    Circuit.resultState ⟨"auth", [("sue", ⟨Circuit.Level.superAdmin, []⟩)], ["m"]⟩
      (Circuit.resetCircuitBreaker
        ⟨"auth", [("sue", ⟨Circuit.Level.superAdmin, []⟩)], ["m"]⟩ "sue" ["x"]) =
      ⟨"auth", [("sue", ⟨Circuit.Level.superAdmin, []⟩)], ["m"]⟩ ∧
    (((Circuit.getPermissions
        ⟨"auth", [("sue", ⟨Circuit.Level.superAdmin, []⟩)], ["m"]⟩ "sue").level =
          Circuit.Level.superAdmin ∨
        "sue" = (Circuit.State.mk "auth" [("sue", ⟨Circuit.Level.superAdmin, []⟩)] ["m"]).authority) →
      (["x"] : List String).Nodup →
      (∀ u ∈ (["x"] : List String), Circuit.isAllowed
        ⟨"auth", [("sue", ⟨Circuit.Level.superAdmin, []⟩)], ["m"]⟩ u = true) →
      ∃ st', Circuit.tripCircuitBreaker
        ⟨"auth", [("sue", ⟨Circuit.Level.superAdmin, []⟩)], ["m"]⟩ "sue" ["x"] =
        Except.ok st') :=
  Circuit.resetCircuitBreaker_unauthorized
    ⟨"auth", [("sue", ⟨Circuit.Level.superAdmin, []⟩)], ["m"]⟩ "sue" ["x"]
    (by decide) (by decide)

/-- C10 counterexample: the claim quantifies over every caller with stored
level `LEVEL_SOME_MSGS`, but the module authority itself takes the first
switch case regardless of its stored level, so with limit list
`["a", "b"]` (two distinct URLs) it still trips `"c"` successfully. -/
theorem Circuit.tripCircuitBreaker_authority_someMsgs_bypass :
    (Circuit.getPermissions
        ⟨"auth", [("auth", ⟨Circuit.Level.someMsgs, ["a", "b"]⟩)], []⟩ "auth").level =
      Circuit.Level.someMsgs ∧
    ("a" : String) ≠ "b" ∧
    (Circuit.getPermissions
        ⟨"auth", [("auth", ⟨Circuit.Level.someMsgs, ["a", "b"]⟩)], []⟩ "auth").limitTypeUrls =
      ["a", "b"] ∧
    Circuit.tripCircuitBreaker
        ⟨"auth", [("auth", ⟨Circuit.Level.someMsgs, ["a", "b"]⟩)], []⟩ "auth" ["c"] =
      Except.ok ⟨"auth", [("auth", ⟨Circuit.Level.someMsgs, ["a", "b"]⟩)], ["c"]⟩ :=
  ⟨rfl, by decide, rfl, rfl⟩

/-- C10 (amended: restricted to callers other than the module authority):
for a non-authority caller with stored level `LEVEL_SOME_MSGS`, the trip
call errors as soon as any entry of `LimitTypeUrls` differs from a
requested URL, succeeds only when every entry equals each requested URL,
and a caller limited to two or more distinct URLs can never trip any
message. -/
theorem Circuit.tripCircuitBreaker_someMsgs_exact_match
    (st : Circuit.State) (addr : String) (urls : List String)
    (hlevel : (Circuit.getPermissions st addr).level = Circuit.Level.someMsgs)
    (hauth : addr ≠ st.authority) :
    ((∃ u ∈ urls, ∃ l ∈ (Circuit.getPermissions st addr).limitTypeUrls, l ≠ u) →
        ∃ e, Circuit.tripCircuitBreaker st addr urls = Except.error e) ∧
    (∀ st', Circuit.tripCircuitBreaker st addr urls = Except.ok st' →
        ∀ u ∈ urls, ∀ l ∈ (Circuit.getPermissions st addr).limitTypeUrls, l = u) ∧
    (∀ l₁ ∈ (Circuit.getPermissions st addr).limitTypeUrls,
      ∀ l₂ ∈ (Circuit.getPermissions st addr).limitTypeUrls,
        l₁ ≠ l₂ → urls ≠ [] →
        ∃ e, Circuit.tripCircuitBreaker st addr urls = Except.error e) := by
  have hc1 : ¬ ((Circuit.getPermissions st addr).level = Circuit.Level.superAdmin ∨
      addr = st.authority) := by
    rintro (h | h)
    · exact absurd (hlevel.symm.trans h) (by decide)
    · exact hauth h
  have hc2 : ¬ ((Circuit.getPermissions st addr).level = Circuit.Level.allMsgs) :=
    fun h => absurd (hlevel.symm.trans h) (by decide)
  have htrip : Circuit.tripCircuitBreaker st addr urls =
      Circuit.tripSomeLoop (Circuit.getPermissions st addr).limitTypeUrls st urls := by
    unfold Circuit.tripCircuitBreaker
    rw [if_neg hc1, if_neg hc2, if_pos hlevel]
  refine ⟨fun hm => ?_, fun st' hok => ?_, fun l₁ hl₁ l₂ hl₂ hne hurls => ?_⟩
  · rw [htrip]
    exact Circuit.tripSomeLoop_error _ urls st hm
  · rw [htrip] at hok
    exact Circuit.tripSomeLoop_eq_of_ok _ urls st st' hok
  · rw [htrip]
    cases urls with
    | nil => exact absurd rfl hurls
    | cons u rest =>
        by_cases h1 : l₁ = u
        · exact Circuit.tripSomeLoop_error _ _ st
            ⟨u, List.mem_cons_self _ _, l₂, hl₂, fun h => hne (h1.trans h.symm)⟩
        · exact Circuit.tripSomeLoop_error _ _ st
            ⟨u, List.mem_cons_self _ _, l₁, hl₁, h1⟩

/-- Witness for the amended C10 at a concrete state: non-authority account
`alice` with level `LEVEL_SOME_MSGS` and limit list `["a", "b"]`, trip
request `["c"]`. -/
theorem Circuit.tripCircuitBreaker_someMsgs_exact_match_witness :
    ((∃ u ∈ (["c"] : List String),
        ∃ l ∈ (Circuit.getPermissions
          ⟨"auth", [("alice", ⟨Circuit.Level.someMsgs, ["a", "b"]⟩)], []⟩ "alice").limitTypeUrls,
        l ≠ u) →
        ∃ e, Circuit.tripCircuitBreaker
          ⟨"auth", [("alice", ⟨Circuit.Level.someMsgs, ["a", "b"]⟩)], []⟩ "alice" ["c"] =
          Except.error e) ∧
    (∀ st', Circuit.tripCircuitBreaker
        ⟨"auth", [("alice", ⟨Circuit.Level.someMsgs, ["a", "b"]⟩)], []⟩ "alice" ["c"] =
        Except.ok st' →
        ∀ u ∈ (["c"] : List String),
        ∀ l ∈ (Circuit.getPermissions
          ⟨"auth", [("alice", ⟨Circuit.Level.someMsgs, ["a", "b"]⟩)], []⟩ "alice").limitTypeUrls,
        l = u) ∧
    (∀ l₁ ∈ (Circuit.getPermissions
        ⟨"auth", [("alice", ⟨Circuit.Level.someMsgs, ["a", "b"]⟩)], []⟩ "alice").limitTypeUrls,
      ∀ l₂ ∈ (Circuit.getPermissions
        ⟨"auth", [("alice", ⟨Circuit.Level.someMsgs, ["a", "b"]⟩)], []⟩ "alice").limitTypeUrls,
        l₁ ≠ l₂ → (["c"] : List String) ≠ [] →
        ∃ e, Circuit.tripCircuitBreaker
          ⟨"auth", [("alice", ⟨Circuit.Level.someMsgs, ["a", "b"]⟩)], []⟩ "alice" ["c"] =
          Except.error e) :=
  Circuit.tripCircuitBreaker_someMsgs_exact_match
    ⟨"auth", [("alice", ⟨Circuit.Level.someMsgs, ["a", "b"]⟩)], []⟩ "alice" ["c"]
    (by decide) (by decide)

namespace Abi

theorem errCode_toInt_neg (c : ErrCode) : c.toInt < 0 := by
  cases c <;> decide

theorem errCode_toInt_mem (c : ErrCode) : c.toInt ∈ errCodeValues := by
  cases c <;> decide

theorem errCode_toInt_bounds (c : ErrCode) : -(2 ^ 31) ≤ c.toInt ∧ c.toInt < 2 ^ 31 := by
  cases c <;> decide

end Abi

/-- C6: for every unary call, the 32-bit signed return value is
non-negative iff the call succeeded, in which case it equals the number of
response bytes written (at most the supplied capacity); a negative return
value is one of the pre-defined error codes and the buffer then holds a
(possibly truncated) human-readable message rather than response data;
when the capacity fits i32, so does the return value. -/
theorem Abi.unaryCall_return_contract (impl : Abi.MethodBehavior) (req : List Nat)
    (capacity : Nat) :
    (0 ≤ (Abi.unaryCall impl req capacity).1 ↔
      Abi.callSucceeds impl req capacity = true) ∧
    (0 ≤ (Abi.unaryCall impl req capacity).1 →
      (Abi.unaryCall impl req capacity).1 = ((Abi.unaryCall impl req capacity).2.length : Int) ∧
      (Abi.unaryCall impl req capacity).2.length ≤ capacity) ∧
    ((Abi.unaryCall impl req capacity).1 < 0 →
      (Abi.unaryCall impl req capacity).1 ∈ Abi.errCodeValues ∧
      ∃ m, (Abi.unaryCall impl req capacity).2 = (Abi.strBytes m).take capacity) ∧
    (capacity < 2 ^ 31 →
      -(2 ^ 31) ≤ (Abi.unaryCall impl req capacity).1 ∧
      (Abi.unaryCall impl req capacity).1 < 2 ^ 31) := by
  rcases h : impl req with e | res
  · obtain ⟨c, m⟩ := e
    have hret : Abi.unaryCall impl req capacity = (c.toInt, (Abi.strBytes m).take capacity) := by
      simp [Abi.unaryCall, h]
    have hneg := Abi.errCode_toInt_neg c
    refine ⟨?_, ?_, ?_, ?_⟩
    · rw [hret]
      simp only [Abi.callSucceeds, h]
      constructor
      · intro hc; omega
      · intro hc; cases hc
    · rw [hret]; intro hc; omega
    · rw [hret]; intro _
      exact ⟨Abi.errCode_toInt_mem c, m, rfl⟩
    · rw [hret]; intro _
      exact Abi.errCode_toInt_bounds c
  · by_cases hle : res.length ≤ capacity
    · have hret : Abi.unaryCall impl req capacity = ((res.length : Int), res) := by
        simp [Abi.unaryCall, h, hle]
      refine ⟨?_, ?_, ?_, ?_⟩
      · rw [hret]
        simp [Abi.callSucceeds, h, hle]
      · rw [hret]; intro _; exact ⟨rfl, hle⟩
      · rw [hret]; intro hc
        exact absurd hc (by omega)
      · rw [hret]; intro hcap
        constructor <;> omega
    · have hret : Abi.unaryCall impl req capacity =
          (Abi.ErrCode.bufferTooSmall.toInt, (Abi.strBytes "buffer too small").take capacity) := by
        simp [Abi.unaryCall, h, hle]
      refine ⟨?_, ?_, ?_, ?_⟩
      · rw [hret]
        simp [Abi.callSucceeds, h, hle, Abi.ErrCode.toInt]
      · rw [hret]; intro hc
        exact absurd hc (by simp [Abi.ErrCode.toInt])
      · rw [hret]; intro _
        exact ⟨Abi.errCode_toInt_mem Abi.ErrCode.bufferTooSmall, "buffer too small", rfl⟩
      · rw [hret]; intro _
        exact Abi.errCode_toInt_bounds Abi.ErrCode.bufferTooSmall


/-- Witness for C6 at a concrete behavior: a response of two bytes against
capacity 16. -/
theorem Abi.unaryCall_return_contract_witness :
    (0 ≤ (Abi.unaryCall (fun _ => Except.ok [0, 1]) [] 16).1 ↔
      Abi.callSucceeds (fun _ => Except.ok [0, 1]) [] 16 = true) :=
  (Abi.unaryCall_return_contract (fun _ => Except.ok [0, 1]) [] 16).1

/-- C7: a unary call whose encoded response exceeds the supplied capacity
returns the `BufferTooSmall` code, zero response bytes are considered
written, and the buffer holds a (truncated) message rather than response
data; the default capacity is 64 KiB. -/
theorem Abi.unaryCall_bufferTooSmall (impl : Abi.MethodBehavior) (req : List Nat)
    (capacity : Nat) (res : List Nat)
    (hres : impl req = Except.ok res) (hbig : capacity < res.length) :
    (Abi.unaryCall impl req capacity).1 = Abi.ErrCode.bufferTooSmall.toInt ∧
    Abi.bytesWritten (Abi.unaryCall impl req capacity).1 = 0 ∧
    (∃ m, (Abi.unaryCall impl req capacity).2 = (Abi.strBytes m).take capacity) ∧
    Abi.defaultResponseCapacity = 64 * 1024 := by
  have hnle : ¬ (res.length ≤ capacity) := by omega
  have hret : Abi.unaryCall impl req capacity =
      (Abi.ErrCode.bufferTooSmall.toInt, (Abi.strBytes "buffer too small").take capacity) := by
    simp [Abi.unaryCall, hres, hnle]
  refine ⟨by rw [hret], ?_, ⟨"buffer too small", by rw [hret]⟩, rfl⟩
  rw [hret]
  simp [Abi.bytesWritten, Abi.ErrCode.toInt]

/-- Witness for C7: a 70 KiB response against the default 64 KiB buffer. -/
theorem Abi.unaryCall_bufferTooSmall_witness :
    Abi.defaultResponseCapacity < (List.replicate 71680 (0 : Nat)).length ∧
    (Abi.unaryCall (fun _ => Except.ok (List.replicate 71680 (0 : Nat))) []
        Abi.defaultResponseCapacity).1 = Abi.ErrCode.bufferTooSmall.toInt ∧
    Abi.bytesWritten (Abi.unaryCall (fun _ => Except.ok (List.replicate 71680 (0 : Nat))) []
        Abi.defaultResponseCapacity).1 = 0 :=
  ⟨by rw [List.length_replicate]; norm_num [Abi.defaultResponseCapacity],
    (Abi.unaryCall_bufferTooSmall (fun _ => Except.ok (List.replicate 71680 (0 : Nat))) []
      Abi.defaultResponseCapacity (List.replicate 71680 (0 : Nat)) rfl
      (by rw [List.length_replicate]; norm_num [Abi.defaultResponseCapacity])).1,
    (Abi.unaryCall_bufferTooSmall (fun _ => Except.ok (List.replicate 71680 (0 : Nat))) []
      Abi.defaultResponseCapacity (List.replicate 71680 (0 : Nat)) rfl
      (by rw [List.length_replicate]; norm_num [Abi.defaultResponseCapacity])).2.1⟩

namespace Abi

theorem linkLoop_ok_append (provs : List ProviderInfo) (arity : Nat → Nat) :
    ∀ (pre invoked rest : List Nat),
    (∀ j ∈ pre, arity j = (provs.getD j ⟨[], []⟩).outputs.length) →
    linkLoop provs arity invoked (pre ++ rest) = linkLoop provs arity (invoked ++ pre) rest
  | [], invoked, rest, _ => by simp
  | i :: pre, invoked, rest, h => by
      have hi := h i (List.mem_cons_self _ _)
      have hrec := linkLoop_ok_append provs arity pre (invoked ++ [i]) rest
        (fun j hj => h j (List.mem_cons_of_mem _ hj))
      simp only [List.cons_append, linkLoop, if_pos hi, List.append_eq]
      rw [hrec]
      simp [List.append_assoc]

end Abi

/-- C5: during linking, the first provider in the execution order whose
`register_output` invocation count differs from its declared output count
makes linking fail with `OutputArityError`; exactly the preceding
providers plus the offending one are invoked, and (for a duplicate-free
order) no provider later in the order is invoked. -/
theorem Abi.linkLoop_outputArity (provs : List Abi.ProviderInfo) (arity : Nat → Nat)
    (pre post : List Nat) (i : Nat)
    (hpre : ∀ j ∈ pre, arity j = (provs.getD j ⟨[], []⟩).outputs.length)
    (hbad : arity i ≠ (provs.getD i ⟨[], []⟩).outputs.length) :
    Abi.linkLoop provs arity [] (pre ++ i :: post) =
      (pre ++ [i], some (Abi.LinkError.outputArity i)) ∧
    ((pre ++ i :: post).Nodup → ∀ j ∈ post, j ∉ pre ++ [i]) := by
  constructor
  · rw [Abi.linkLoop_ok_append provs arity pre [] (i :: post) hpre]
    simp only [Abi.linkLoop, if_neg hbad, List.nil_append]
  · intro hnd j hj
    rcases List.nodup_append.mp hnd with ⟨-, hnd2, hdisj⟩
    have hji : j ≠ i := by
      intro he
      exact (List.nodup_cons.mp hnd2).1 (he ▸ hj)
    have hjpre : j ∉ pre := fun hp => hdisj hp (List.mem_cons_of_mem _ hj)
    simp [List.mem_append, hjpre, hji]

/-- Witness for C5: one provider declaring three outputs whose
implementation registers only two. -/
theorem Abi.linkLoop_outputArity_witness :
    (fun _ => 2 : Nat → Nat) 0 ≠
      (([⟨[], [⟨Abi.Kind.service "s"⟩, ⟨Abi.Kind.service "t"⟩, ⟨Abi.Kind.service "u"⟩]⟩] :
        List Abi.ProviderInfo).getD 0 ⟨[], []⟩).outputs.length ∧
    Abi.linkLoop
        ([⟨[], [⟨Abi.Kind.service "s"⟩, ⟨Abi.Kind.service "t"⟩, ⟨Abi.Kind.service "u"⟩]⟩] :
          List Abi.ProviderInfo)
        (fun _ => 2) [] ([] ++ 0 :: []) =
      ([] ++ [0], some (Abi.LinkError.outputArity 0)) :=
  ⟨by decide,
    (Abi.linkLoop_outputArity
      ([⟨[], [⟨Abi.Kind.service "s"⟩, ⟨Abi.Kind.service "t"⟩, ⟨Abi.Kind.service "u"⟩]⟩])
      (fun _ => 2) [] [] 0 (by simp) (by decide)).1⟩

namespace Abi

theorem lookup_mem {l : List (String × String)} {n s : String}
    (h : l.lookup n = some s) : (n, s) ∈ l := by
  obtain ⟨l₁, l₂, rfl, -⟩ := List.lookup_eq_some_iff.mp h
  exact List.mem_append.mpr (Or.inr (List.mem_cons_self _ _))

theorem mergeDescriptor_lookup {cat cat' : List (String × String)} {d : String × String}
    (hm : mergeDescriptor cat d = .ok cat') {n s : String}
    (hs : cat.lookup n = some s) : cat'.lookup n = some s := by
  unfold mergeDescriptor at hm
  rcases hc : cat.lookup d.1 with _ | s₀ <;> rw [hc] at hm
  · have hcat : cat' = cat ++ [d] := by
      simpa using hm.symm
    subst hcat
    rw [List.lookup_append, hs]
    rfl
  · by_cases he : s₀ = d.2
    · simp only [if_pos he] at hm
      cases hm
      exact hs
    · simp [if_neg he] at hm

theorem mergeAll_mono : ∀ (l cat c : List (String × String)),
    mergeAll cat l = .ok c → ∀ n s, cat.lookup n = some s → c.lookup n = some s
  | [], cat, c, h => by
      intro n s hs
      have hcc : cat = c := by simpa [mergeAll] using h
      exact hcc ▸ hs
  | d :: rest, cat, c, h => by
      intro n s hs
      rcases hm : mergeDescriptor cat d with e | cat'
      · simp [mergeAll, hm] at h
      · have h' : mergeAll cat' rest = .ok c := by simpa [mergeAll, hm] using h
        exact mergeAll_mono rest cat' c h' n s (mergeDescriptor_lookup hm hs)

theorem mergeAll_mem_lookup : ∀ (l cat c : List (String × String)),
    mergeAll cat l = .ok c → ∀ nv : String × String, nv ∈ l → c.lookup nv.1 = some nv.2
  | [], cat, c, h => by
      intro nv hnv
      simp at hnv
  | d :: rest, cat, c, h => by
      intro nv hnv
      rcases hm : mergeDescriptor cat d with e | cat'
      · simp [mergeAll, hm] at h
      · have h' : mergeAll cat' rest = .ok c := by simpa [mergeAll, hm] using h
        rcases List.mem_cons.mp hnv with rfl | hmem
        · refine mergeAll_mono rest cat' c h' nv.1 nv.2 ?_
          unfold mergeDescriptor at hm
          rcases hc : cat.lookup nv.1 with _ | s₀ <;> rw [hc] at hm
          · have hcat : cat' = cat ++ [nv] := by simpa using hm.symm
            subst hcat
            rw [List.lookup_append, hc]
            obtain ⟨n', s'⟩ := nv
            simp
          · by_cases he : s₀ = nv.2
            · simp only [if_pos he] at hm
              cases hm
              rw [hc, he]
            · simp [if_neg he] at hm
        · exact mergeAll_mem_lookup rest cat' c h' nv hmem

theorem mergeAll_lookup_inv : ∀ (l cat c : List (String × String)),
    mergeAll cat l = .ok c → ∀ n s, c.lookup n = some s →
    cat.lookup n = some s ∨ (n, s) ∈ l
  | [], cat, c, h => by
      intro n s hs
      have hcc : cat = c := by simpa [mergeAll] using h
      exact Or.inl (hcc ▸ hs)
  | d :: rest, cat, c, h => by
      intro n s hs
      rcases hm : mergeDescriptor cat d with e | cat'
      · simp [mergeAll, hm] at h
      · have h' : mergeAll cat' rest = .ok c := by simpa [mergeAll, hm] using h
        rcases mergeAll_lookup_inv rest cat' c h' n s hs with hcat' | hmem
        · unfold mergeDescriptor at hm
          rcases hc : cat.lookup d.1 with _ | s₀ <;> rw [hc] at hm
          · have hcat : cat' = cat ++ [d] := by simpa using hm.symm
            subst hcat
            rw [List.lookup_append] at hcat'
            rcases ho : cat.lookup n with _ | sc <;> rw [ho] at hcat'
            · right
              simp only [Option.none_or] at hcat'
              obtain ⟨n', s'⟩ := d
              rw [List.lookup_cons] at hcat'
              by_cases hn : n = n'
              · subst hn
                simp only [beq_self_eq_true] at hcat'
                cases hcat'
                exact List.mem_cons_self _ _
              · have hne : (n == n') = false := beq_eq_false_iff_ne.mpr hn
                rw [hne] at hcat'
                simp at hcat'
            · left
              rw [Option.or_some] at hcat'
              exact hcat'
          · by_cases he : s₀ = d.2
            · simp only [if_pos he] at hm
              cases hm
              exact Or.inl hcat'
            · simp [if_neg he] at hm
        · exact Or.inr (List.mem_cons_of_mem _ hmem)

end Abi

namespace Abi

theorem mergeAll_ok_of_consistent : ∀ (l cat : List (String × String)),
    (∀ n s s', ((n, s) ∈ cat ∨ (n, s) ∈ l) → ((n, s') ∈ cat ∨ (n, s') ∈ l) → s = s') →
    ∃ c, mergeAll cat l = .ok c
  | [], cat, _ => ⟨cat, rfl⟩
  | (k, v) :: rest, cat, hc => by
      rcases hl : cat.lookup k with _ | s₀
      · have hcons' : ∀ a s s', ((a, s) ∈ cat ++ [(k, v)] ∨ (a, s) ∈ rest) →
            ((a, s') ∈ cat ++ [(k, v)] ∨ (a, s') ∈ rest) → s = s' := by
          intro a s s' h1 h2
          have hlift : ∀ t : String, ((a, t) ∈ cat ++ [(k, v)] ∨ (a, t) ∈ rest) →
              ((a, t) ∈ cat ∨ (a, t) ∈ (k, v) :: rest) := by
            intro t ht
            rcases ht with ht | ht
            · rcases List.mem_append.mp ht with h | h
              · exact Or.inl h
              · right
                have he : (a, t) = (k, v) := by simpa using h
                rw [he]
                exact List.mem_cons_self _ _
            · exact Or.inr (List.mem_cons_of_mem _ ht)
          exact hc a s s' (hlift s h1) (hlift s' h2)
        obtain ⟨c, hcrec⟩ := mergeAll_ok_of_consistent rest (cat ++ [(k, v)]) hcons'
        exact ⟨c, by simp [mergeAll, mergeDescriptor, hl, hcrec]⟩
      · have hs₀ : s₀ = v :=
          hc k s₀ v (Or.inl (lookup_mem hl)) (Or.inr (List.mem_cons_self _ _))
        have hcons' : ∀ a s s', ((a, s) ∈ cat ∨ (a, s) ∈ rest) →
            ((a, s') ∈ cat ∨ (a, s') ∈ rest) → s = s' := by
          intro a s s' h1 h2
          exact hc a s s' (h1.imp id (List.mem_cons_of_mem _))
            (h2.imp id (List.mem_cons_of_mem _))
        obtain ⟨c, hcrec⟩ := mergeAll_ok_of_consistent rest cat hcons'
        exact ⟨c, by simp [mergeAll, mergeDescriptor, hl, hs₀, hcrec]⟩

end Abi

/-- C8: the merged descriptor catalogue is invariant under permutation of
descriptor delivery order — for any delivery order on which the merge
succeeds, every other delivery order of the same descriptors also succeeds
and yields the same catalogue (lookup by qualified name agrees on every
name). -/
theorem Abi.mergeAll_perm_invariant (l₁ l₂ : List (String × String))
    (hperm : l₁.Perm l₂) (c₁ : List (String × String))
    (h₁ : Abi.mergeAll [] l₁ = .ok c₁) :
    ∃ c₂, Abi.mergeAll [] l₂ = .ok c₂ ∧ ∀ n, c₂.lookup n = c₁.lookup n := by
  have hcons : ∀ n s s', (n, s) ∈ l₂ → (n, s') ∈ l₂ → s = s' := by
    intro n s s' h h'
    have e1 := Abi.mergeAll_mem_lookup l₁ [] c₁ h₁ (n, s) (hperm.mem_iff.mpr h)
    have e2 := Abi.mergeAll_mem_lookup l₁ [] c₁ h₁ (n, s') (hperm.mem_iff.mpr h')
    exact Option.some.inj (e1.symm.trans e2)
  obtain ⟨c₂, h₂⟩ := Abi.mergeAll_ok_of_consistent l₂ [] (by
    intro n s s' h1 h2
    rcases h1 with h1 | h1
    · simp at h1
    rcases h2 with h2 | h2
    · simp at h2
    exact hcons n s s' h1 h2)
  refine ⟨c₂, h₂, fun n => ?_⟩
  rcases hl : c₁.lookup n with _ | s
  · rcases hl2 : c₂.lookup n with _ | s'
    · rfl
    · exfalso
      rcases Abi.mergeAll_lookup_inv l₂ [] c₂ h₂ n s' hl2 with h | h
      · simp at h
      · have hb := Abi.mergeAll_mem_lookup l₁ [] c₁ h₁ (n, s') (hperm.mem_iff.mpr h)
        rw [hl] at hb
        simp at hb
  · rcases Abi.mergeAll_lookup_inv l₁ [] c₁ h₁ n s hl with h | h
    · simp at h
    · exact Abi.mergeAll_mem_lookup l₂ [] c₂ h₂ (n, s) (hperm.mem_iff.mp h)

/-- Witness for C8: two descriptors delivered in either order yield the
same catalogue. -/
theorem Abi.mergeAll_perm_invariant_witness :
    ∃ c₂, Abi.mergeAll [] [("b", "y"), ("a", "x")] = .ok c₂ ∧
      ∀ n, c₂.lookup n = ([("a", "x"), ("b", "y")] : List (String × String)).lookup n :=
  Abi.mergeAll_perm_invariant [("a", "x"), ("b", "y")] [("b", "y"), ("a", "x")]
    (List.Perm.swap _ _ _) [("a", "x"), ("b", "y")] rfl

namespace Abi

theorem mem_producersOf {provs : List ProviderInfo} {k : Kind} {i : Nat} :
    i ∈ producersOf provs k ↔
    ∃ p, provs.get? i = some p ∧ ∃ o ∈ p.outputs, o.kind = k := by
  unfold producersOf
  simp only [List.mem_map, List.mem_filter, List.mem_enum_iff_get?, List.any_eq_true,
    decide_eq_true_eq]
  constructor
  · rintro ⟨⟨a, p⟩, ⟨hget, o, ho, hk⟩, rfl⟩
    exact ⟨p, hget, o, ho, hk⟩
  · rintro ⟨p, hget, o, ho, hk⟩
    exact ⟨(i, p), ⟨hget, o, ho, hk⟩, rfl⟩

theorem mem_outputKinds {provs : List ProviderInfo} {k : Kind} :
    k ∈ outputKinds provs ↔ ∃ p ∈ provs, ∃ o ∈ p.outputs, o.kind = k := by
  unfold outputKinds
  simp only [List.mem_flatten, List.mem_map]
  constructor
  · rintro ⟨ks, ⟨p, hp, rfl⟩, hk⟩
    obtain ⟨o, ho, rfl⟩ := List.mem_map.mp hk
    exact ⟨p, hp, o, ho, rfl⟩
  · rintro ⟨p, hp, o, ho, hk⟩
    exact ⟨p.outputs.map (fun o => o.kind), ⟨p, hp, rfl⟩, List.mem_map.mpr ⟨o, ho, hk⟩⟩

theorem mem_requiredInputKinds {provs : List ProviderInfo} {k : Kind} :
    k ∈ requiredInputKinds provs ↔
    ∃ p ∈ provs, ∃ inp ∈ p.inputs, inp.optional = false ∧ inp.kind = k := by
  unfold requiredInputKinds
  simp only [List.mem_flatten, List.mem_map]
  constructor
  · rintro ⟨ks, ⟨p, hp, rfl⟩, hk⟩
    obtain ⟨inp, hinp, rfl⟩ := List.mem_map.mp hk
    have hm := List.mem_filter.mp hinp
    exact ⟨p, hp, inp, hm.1, by simpa using hm.2, rfl⟩
  · rintro ⟨p, hp, inp, hinp, hopt, hk⟩
    refine ⟨(p.inputs.filter (fun i => !i.optional)).map (fun i => i.kind), ⟨p, hp, rfl⟩, ?_⟩
    exact List.mem_map.mpr ⟨inp, List.mem_filter.mpr ⟨hinp, by simp [hopt]⟩, hk⟩

theorem two_le_length_of_mem_ne {l : List Nat} {a b : Nat}
    (ha : a ∈ l) (hb : b ∈ l) (hab : a ≠ b) : 2 ≤ l.length := by
  cases l with
  | nil => simp at ha
  | cons x t =>
      cases t with
      | nil =>
          simp at ha hb
          exact absurd (ha.trans hb.symm) hab
      | cons y u => simp [List.length]

theorem kahnRounds_error_cyclic (provs : List ProviderInfo) :
    ∀ (fuel : Nat) (pending : List (Nat × ProviderInfo)) (resolved : List Nat) (e : ResolveError),
      kahnRounds provs fuel pending resolved = .error e → ∃ rem, e = .cyclic rem
  | fuel, [], resolved, e, h => by
      cases fuel <;> simp [kahnRounds] at h
  | 0, ip :: pending, resolved, e, h => by
      refine ⟨((ip :: pending).map (·.1)), ?_⟩
      simpa [kahnRounds] using h.symm
  | fuel + 1, ip :: pending, resolved, e, h => by
      rw [kahnRounds] at h
      by_cases hemp : (((ip :: pending)).filter (fun q => eligible provs resolved q.2)).isEmpty
      · rw [if_pos hemp] at h
        exact ⟨((ip :: pending).map (·.1)), by injection h with h; exact h.symm⟩
      · rw [if_neg hemp] at h
        rcases hrec : kahnRounds provs fuel
            ((ip :: pending).filter (fun q => !(eligible provs resolved q.2)))
            (resolved ++ ((ip :: pending).filter (fun q => eligible provs resolved q.2)).map (·.1))
          with e' | rounds
        · rw [hrec] at h
          injection h with h
          exact h ▸ kahnRounds_error_cyclic provs fuel _ _ e' hrec
        · rw [hrec] at h
          cases h

end Abi

/-- C4: two distinct providers declaring the same ServiceType as an output
make resolution fail with `DuplicateOutputError` for a duplicated service
kind before any provider runs; `DuplicateOutputError` is only ever raised
for a ServiceType (event-listener fan-in is the permitted exception); and
when no service output is duplicated, a non-optional input with zero
producers makes resolution fail with `MissingInputError` for such a kind. -/
theorem Abi.resolve_output_checks (r : Abi.Registry) (arity : Nat → Nat) :
    ((∃ k i j pi pj, i ≠ j ∧
        (Abi.allProviders r).get? i = some pi ∧ (Abi.allProviders r).get? j = some pj ∧
        k.isService = true ∧ (∃ o ∈ pi.outputs, o.kind = k) ∧ (∃ o ∈ pj.outputs, o.kind = k)) →
      ∃ k', Abi.resolve r = .error (.duplicateOutput k') ∧ k'.isService = true ∧
        2 ≤ (Abi.producersOf (Abi.allProviders r) k').length ∧
        (Abi.link r arity).1 = []) ∧
    (∀ k, Abi.resolve r = .error (.duplicateOutput k) → k.isService = true) ∧
    (Abi.findDuplicateOutput (Abi.allProviders r) = none →
      (∃ p ∈ Abi.allProviders r, ∃ inp ∈ p.inputs, inp.optional = false ∧
        Abi.producersOf (Abi.allProviders r) inp.kind = []) →
      ∃ k', Abi.resolve r = .error (.missingInput k') ∧
        Abi.producersOf (Abi.allProviders r) k' = []) := by
  refine ⟨?_, ?_, ?_⟩
  · rintro ⟨k, i, j, pi, pj, hij, hi, hj, hsvc, ⟨oi, hoi, hoik⟩, ⟨oj, hoj, hojk⟩⟩
    have hkmem : k ∈ Abi.outputKinds (Abi.allProviders r) :=
      Abi.mem_outputKinds.mpr ⟨pi, List.get?_mem hi, oi, hoi, hoik⟩
    have hiprod : i ∈ Abi.producersOf (Abi.allProviders r) k :=
      Abi.mem_producersOf.mpr ⟨pi, hi, oi, hoi, hoik⟩
    have hjprod : j ∈ Abi.producersOf (Abi.allProviders r) k :=
      Abi.mem_producersOf.mpr ⟨pj, hj, oj, hoj, hojk⟩
    have hlen : 2 ≤ (Abi.producersOf (Abi.allProviders r) k).length :=
      Abi.two_le_length_of_mem_ne hiprod hjprod hij
    have hsome : (Abi.findDuplicateOutput (Abi.allProviders r)).isSome := by
      unfold Abi.findDuplicateOutput
      exact List.find?_isSome.mpr ⟨k, hkmem, by simp [hsvc, hlen]⟩
    obtain ⟨k', hk'⟩ := Option.isSome_iff_exists.mp hsome
    obtain ⟨hsvc', hlen'⟩ : k'.isService = true ∧
        2 ≤ (Abi.producersOf (Abi.allProviders r) k').length := by
      have hh := hk'
      unfold Abi.findDuplicateOutput at hh
      simpa using List.find?_some hh
    have hres : Abi.resolve r = .error (.duplicateOutput k') := by
      simp [Abi.resolve, Abi.resolveProviders, hk']
    exact ⟨k', hres, hsvc', hlen', by simp [Abi.link, hres]⟩
  · intro k hres
    rcases h1 : Abi.findDuplicateOutput (Abi.allProviders r) with _ | k₀
    · rcases h2 : Abi.findMissingInput (Abi.allProviders r) with _ | k₁
      · rcases h3 : Abi.kahnRounds (Abi.allProviders r) (Abi.allProviders r).length
            (Abi.allProviders r).enum [] with e | rounds
        · obtain ⟨rem, hrem⟩ := Abi.kahnRounds_error_cyclic _ _ _ _ _ h3
          rw [Abi.resolve, Abi.resolveProviders] at hres
          rw [h1, h2, h3, hrem] at hres
          simp at hres
        · rw [Abi.resolve, Abi.resolveProviders] at hres
          rw [h1, h2, h3] at hres
          simp at hres
      · rw [Abi.resolve, Abi.resolveProviders] at hres
        rw [h1, h2] at hres
        simp at hres
    · rw [Abi.resolve, Abi.resolveProviders] at hres
      rw [h1] at hres
      simp only [Except.error.injEq] at hres
      have hk : k₀ = k := by
        injection hres with he
      subst hk
      have hpk : k₀.isService = true ∧
          2 ≤ (Abi.producersOf (Abi.allProviders r) k₀).length := by
        have hh := h1
        unfold Abi.findDuplicateOutput at hh
        simpa using List.find?_some hh
      exact hpk.1
  · rintro h1 ⟨p, hp, inp, hinp, hopt, hprod⟩
    have hkmem : inp.kind ∈ Abi.requiredInputKinds (Abi.allProviders r) :=
      Abi.mem_requiredInputKinds.mpr ⟨p, hp, inp, hinp, hopt, rfl⟩
    have hsome : (Abi.findMissingInput (Abi.allProviders r)).isSome := by
      unfold Abi.findMissingInput
      exact List.find?_isSome.mpr ⟨inp.kind, hkmem, by simp [hprod]⟩
    obtain ⟨k', hk'⟩ := Option.isSome_iff_exists.mp hsome
    have hempty : Abi.producersOf (Abi.allProviders r) k' = [] := by
      have hh := hk'
      unfold Abi.findMissingInput at hh
      simpa [List.isEmpty_iff] using List.find?_some hh
    exact ⟨k', by simp [Abi.resolve, Abi.resolveProviders, h1, hk'], hempty⟩

/-- Witness for C4: two providers in one module both declaring service `s`
as an output. -/
theorem Abi.resolve_output_checks_witness :
    ∃ k', Abi.resolve
        ([[⟨"m", [⟨[], [⟨Abi.Kind.service "s"⟩]⟩, ⟨[], [⟨Abi.Kind.service "s"⟩]⟩]⟩]] :
          Abi.Registry) = .error (.duplicateOutput k') ∧ k'.isService = true ∧
      2 ≤ (Abi.producersOf (Abi.allProviders
        ([[⟨"m", [⟨[], [⟨Abi.Kind.service "s"⟩]⟩, ⟨[], [⟨Abi.Kind.service "s"⟩]⟩]⟩]] :
          Abi.Registry)) k').length ∧
      (Abi.link ([[⟨"m", [⟨[], [⟨Abi.Kind.service "s"⟩]⟩, ⟨[], [⟨Abi.Kind.service "s"⟩]⟩]⟩]] :
          Abi.Registry) (fun _ => 0)).1 = [] :=
  (Abi.resolve_output_checks _ (fun _ => 0)).1
    ⟨Abi.Kind.service "s", 0, 1, ⟨[], [⟨Abi.Kind.service "s"⟩]⟩, ⟨[], [⟨Abi.Kind.service "s"⟩]⟩,
      by decide, rfl, rfl, rfl, by decide, by decide⟩

namespace Abi

theorem kahnRounds_sorted (provs : List ProviderInfo) :
    ∀ (fuel : Nat) (pending : List (Nat × ProviderInfo)) (resolved : List Nat)
      (rounds : List (List Nat)),
      (pending.map (·.1)).Pairwise (· < ·) →
      kahnRounds provs fuel pending resolved = .ok rounds →
      ∀ round ∈ rounds, round.Pairwise (· < ·)
  | fuel, [], resolved, rounds, _, h => by
      have hr : rounds = [] := by
        cases fuel <;> simpa [kahnRounds] using h.symm
      subst hr
      simp
  | 0, ip :: pending, resolved, rounds, _, h => by
      simp [kahnRounds] at h
  | fuel + 1, ip :: pending, resolved, rounds, hpair, h => by
      rw [kahnRounds] at h
      by_cases hemp : ((ip :: pending).filter (fun q => eligible provs resolved q.2)).isEmpty
      · rw [if_pos hemp] at h
        cases h
      · rw [if_neg hemp] at h
        rcases hrec : kahnRounds provs fuel
            ((ip :: pending).filter (fun q => !(eligible provs resolved q.2)))
            (resolved ++ ((ip :: pending).filter (fun q => eligible provs resolved q.2)).map (·.1))
          with e | rounds'
        · rw [hrec] at h
          cases h
        · rw [hrec] at h
          injection h with h
          subst h
          intro round hround
          rcases List.mem_cons.mp hround with rfl | hmem
          · exact List.Pairwise.sublist ((List.filter_sublist _).map _) hpair
          · exact kahnRounds_sorted provs fuel _ _ rounds'
              (List.Pairwise.sublist ((List.filter_sublist _).map _) hpair) hrec round hmem

end Abi

/-- C1: graph resolution is a function of the registration set alone —
equal registries yield identical execution orders — and ties between
simultaneously eligible providers are broken only by the
declaration-derived index (unit load order, then within-unit module order,
then within-module provider order): every Kahn selection round lists
providers in strictly increasing declaration order. -/
theorem Abi.resolve_deterministic (r₁ r₂ : Abi.Registry) (h : r₁ = r₂) :
    Abi.resolve r₁ = Abi.resolve r₂ ∧
    ∀ rounds, Abi.resolveRounds r₁ = .ok rounds →
      ∀ round ∈ rounds, round.Pairwise (· < ·) := by
  subst h
  refine ⟨rfl, fun rounds hr round hround => ?_⟩
  have hfst : (Abi.allProviders r₁).enum.map (·.1) =
      List.range (Abi.allProviders r₁).length := List.enum_map_fst _
  have hpair : ((Abi.allProviders r₁).enum.map (·.1)).Pairwise (· < ·) := by
    rw [hfst]
    exact List.pairwise_lt_range _
  exact Abi.kahnRounds_sorted (Abi.allProviders r₁) (Abi.allProviders r₁).length
    (Abi.allProviders r₁).enum [] rounds hpair hr round hround

/-- Witness for C1: a two-provider registry (provider 1 consumes provider
0's service); resolution yields rounds `[[0], [1]]`, each internally in
declaration order. -/
theorem Abi.resolve_deterministic_witness :
    Abi.resolve
        ([[⟨"m", [⟨[], [⟨Abi.Kind.service "s"⟩]⟩,
            ⟨[⟨Abi.Kind.service "s", false⟩], [⟨Abi.Kind.service "t"⟩]⟩]⟩]] : Abi.Registry) =
      Abi.resolve
        ([[⟨"m", [⟨[], [⟨Abi.Kind.service "s"⟩]⟩,
            ⟨[⟨Abi.Kind.service "s", false⟩], [⟨Abi.Kind.service "t"⟩]⟩]⟩]] : Abi.Registry) ∧
    ∀ rounds, Abi.resolveRounds
        ([[⟨"m", [⟨[], [⟨Abi.Kind.service "s"⟩]⟩,
            ⟨[⟨Abi.Kind.service "s", false⟩], [⟨Abi.Kind.service "t"⟩]⟩]⟩]] : Abi.Registry) =
        .ok rounds →
      ∀ round ∈ rounds, round.Pairwise (· < ·) :=
  Abi.resolve_deterministic _ _ rfl

namespace Abi

theorem eligible_spec {provs : List ProviderInfo} {resolved : List Nat}
    {q : Nat × ProviderInfo} (hget : provs.get? q.1 = some q.2)
    (helig : eligible provs resolved q.2 = true) :
    ∀ i, dependsOn provs i q.1 → i ∈ resolved := by
  rintro i ⟨p, hp, inp, hinp, hiprod⟩
  rw [hget] at hp
  injection hp with hp
  subst hp
  have h1 := List.all_eq_true.mp helig inp hinp
  have h2 := List.all_eq_true.mp h1 i hiprod
  simpa using h2

theorem kahn_sound (provs : List ProviderInfo) :
    ∀ (fuel : Nat) (pending : List (Nat × ProviderInfo)) (resolved : List Nat)
      (rounds : List (List Nat)),
      (∀ ip ∈ pending, provs.get? ip.1 = some ip.2) →
      (∀ ip ∈ pending, ip.1 ∉ resolved) →
      (∀ j ∈ resolved, ∀ i, dependsOn provs i j → i ∈ resolved) →
      List.Pairwise (fun a b => ¬ dependsOn provs b a) resolved →
      (∀ j ∈ resolved, ¬ dependsOn provs j j) →
      kahnRounds provs fuel pending resolved = .ok rounds →
      (resolved ++ rounds.flatten).Perm (resolved ++ pending.map (·.1)) ∧
      List.Pairwise (fun a b => ¬ dependsOn provs b a) (resolved ++ rounds.flatten) ∧
      (∀ j ∈ resolved ++ rounds.flatten, ¬ dependsOn provs j j)
  | fuel, [], resolved, rounds, _, _, _, hpair, hirr, h => by
      have hr : rounds = [] := by
        cases fuel <;> simpa [kahnRounds] using h.symm
      subst hr
      simp only [List.flatten_nil, List.map_nil, List.append_nil]
      exact ⟨List.Perm.refl _, hpair, hirr⟩
  | 0, ip :: pending, resolved, rounds, _, _, _, _, _, h => by
      simp [kahnRounds] at h
  | fuel + 1, ip :: pending, resolved, rounds, hcons, hdisj, hclosed, hpair, hirr, h => by
      rw [kahnRounds] at h
      by_cases hemp : ((ip :: pending).filter (fun q => eligible provs resolved q.2)).isEmpty
      · rw [if_pos hemp] at h
        cases h
      · rw [if_neg hemp] at h
        rcases hrec : kahnRounds provs fuel
            ((ip :: pending).filter (fun q => !(eligible provs resolved q.2)))
            (resolved ++ ((ip :: pending).filter (fun q => eligible provs resolved q.2)).map (·.1))
          with e | rounds'
        · rw [hrec] at h
          cases h
        · rw [hrec] at h
          injection h with h
          subst h
          have hselmem : ∀ q ∈ (ip :: pending).filter (fun q => eligible provs resolved q.2),
              q ∈ ip :: pending ∧ eligible provs resolved q.2 = true := by
            intro q hq
            have hm := List.mem_filter.mp hq
            exact ⟨hm.1, hm.2⟩
          have hseldep : ∀ q ∈ (ip :: pending).filter (fun q => eligible provs resolved q.2),
              ∀ i, dependsOn provs i q.1 → i ∈ resolved := fun q hq =>
            eligible_spec (hcons q (hselmem q hq).1) (hselmem q hq).2
          have hselnotres : ∀ q ∈ (ip :: pending).filter (fun q => eligible provs resolved q.2),
              q.1 ∉ resolved := fun q hq => hdisj q (hselmem q hq).1
          have hcons' : ∀ q ∈ (ip :: pending).filter (fun q => !(eligible provs resolved q.2)),
              provs.get? q.1 = some q.2 := fun q hq => hcons q (List.mem_filter.mp hq).1
          have hdisj' : ∀ q ∈ (ip :: pending).filter (fun q => !(eligible provs resolved q.2)),
              q.1 ∉ resolved ++
                ((ip :: pending).filter (fun q => eligible provs resolved q.2)).map (·.1) := by
            intro q hq
            have hqmem := (List.mem_filter.mp hq).1
            have hqnot : eligible provs resolved q.2 = false := by
              have hb := (List.mem_filter.mp hq).2
              simpa using hb
            rw [List.mem_append]
            rintro (hr | hs)
            · exact hdisj q hqmem hr
            · obtain ⟨q', hq', he⟩ := List.mem_map.mp hs
              have h1 : provs.get? q.1 = some q'.2 := he ▸ hcons q' (hselmem q' hq').1
              have h2 : provs.get? q.1 = some q.2 := hcons q hqmem
              have h3 : q'.2 = q.2 := by
                have h4 := h1.symm.trans h2
                injection h4
              rw [← h3, (hselmem q' hq').2] at hqnot
              cases hqnot
          have hclosed' : ∀ j ∈ resolved ++
                ((ip :: pending).filter (fun q => eligible provs resolved q.2)).map (·.1),
              ∀ i, dependsOn provs i j → i ∈ resolved ++
                ((ip :: pending).filter (fun q => eligible provs resolved q.2)).map (·.1) := by
            intro j hj i hdep
            rw [List.mem_append] at hj ⊢
            rcases hj with hj | hj
            · exact Or.inl (hclosed j hj i hdep)
            · obtain ⟨q, hq, he⟩ := List.mem_map.mp hj
              exact Or.inl (hseldep q hq i (he ▸ hdep))
          have hpairsel : List.Pairwise (fun a b => ¬ dependsOn provs b a)
              (((ip :: pending).filter (fun q => eligible provs resolved q.2)).map (·.1)) := by
            apply List.pairwise_of_forall_mem_list
            intro a ha b hb hdep
            obtain ⟨qa, hqa, hea⟩ := List.mem_map.mp ha
            obtain ⟨qb, hqb, heb⟩ := List.mem_map.mp hb
            have hb_res : b ∈ resolved := hseldep qa hqa b (hea ▸ hdep)
            exact (heb ▸ hselnotres qb hqb) hb_res
          have hcross : ∀ a ∈ resolved,
              ∀ b ∈ ((ip :: pending).filter (fun q => eligible provs resolved q.2)).map (·.1),
              ¬ dependsOn provs b a := by
            intro a ha b hb hdep
            obtain ⟨qb, hqb, heb⟩ := List.mem_map.mp hb
            have hb_res : b ∈ resolved := hclosed a ha b hdep
            exact (heb ▸ hselnotres qb hqb) hb_res
          have hpair' : List.Pairwise (fun a b => ¬ dependsOn provs b a) (resolved ++
              ((ip :: pending).filter (fun q => eligible provs resolved q.2)).map (·.1)) :=
            List.pairwise_append.mpr ⟨hpair, hpairsel, hcross⟩
          have hirr' : ∀ j ∈ resolved ++
                ((ip :: pending).filter (fun q => eligible provs resolved q.2)).map (·.1),
              ¬ dependsOn provs j j := by
            intro j hj hdep
            rw [List.mem_append] at hj
            rcases hj with hj | hj
            · exact hirr j hj hdep
            · obtain ⟨q, hq, he⟩ := List.mem_map.mp hj
              have hj_res : j ∈ resolved := hseldep q hq j (he ▸ hdep)
              exact (he ▸ hselnotres q hq) hj_res
          obtain ⟨hperm, hpairF, hirrF⟩ := kahn_sound provs fuel _ _ rounds'
            hcons' hdisj' hclosed' hpair' hirr' hrec
          refine ⟨?_, ?_, ?_⟩
          · rw [List.flatten_cons, ← List.append_assoc]
            refine hperm.trans ?_
            rw [List.append_assoc]
            apply List.Perm.append_left
            have hp := (List.filter_append_perm
              (fun q => eligible provs resolved q.2) (ip :: pending)).map (·.1)
            rw [List.map_append] at hp
            exact hp
          · rw [List.flatten_cons, ← List.append_assoc]
            exact hpairF
          · rw [List.flatten_cons, ← List.append_assoc]
            exact hirrF

end Abi

/-- C2: when resolution succeeds, the execution order is a linear order
over all providers (a permutation of all declaration indices) in which
every provider appears after every producer of any of its input kinds —
covering producers of its non-optional inputs and every producer of an
optional input that exists in the graph. -/
theorem Abi.resolve_topological (r : Abi.Registry) (order : List Nat)
    (h : Abi.resolve r = .ok order) :
    order.Perm (List.range (Abi.allProviders r).length) ∧
    ∀ i j, Abi.dependsOn (Abi.allProviders r) i j →
      order.indexOf i < order.indexOf j := by
  have hx : ∃ rounds, Abi.kahnRounds (Abi.allProviders r) (Abi.allProviders r).length
      (Abi.allProviders r).enum [] = .ok rounds ∧ order = rounds.flatten := by
    rcases h1 : Abi.findDuplicateOutput (Abi.allProviders r) with _ | k₀
    · rcases h2 : Abi.findMissingInput (Abi.allProviders r) with _ | k₁
      · rcases h3 : Abi.kahnRounds (Abi.allProviders r) (Abi.allProviders r).length
            (Abi.allProviders r).enum [] with e | rounds
        · rw [Abi.resolve, Abi.resolveProviders, h1, h2, h3] at h
          simp at h
        · rw [Abi.resolve, Abi.resolveProviders, h1, h2, h3] at h
          simp only [Except.ok.injEq] at h
          exact ⟨rounds, rfl, h.symm⟩
      · rw [Abi.resolve, Abi.resolveProviders, h1, h2] at h
        simp at h
    · rw [Abi.resolve, Abi.resolveProviders, h1] at h
      simp at h
  obtain ⟨rounds, hk, horder⟩ := hx
  have hcons : ∀ ip ∈ (Abi.allProviders r).enum,
      (Abi.allProviders r).get? ip.1 = some ip.2 := by
    intro ip hip
    simpa using List.mem_enum_iff_get?.mp hip
  obtain ⟨hperm, hpairF, hirrF⟩ := Abi.kahn_sound (Abi.allProviders r)
    (Abi.allProviders r).length (Abi.allProviders r).enum [] rounds
    hcons (by simp) (by simp) (by simp) (by simp) hk
  simp only [List.nil_append] at hperm hpairF hirrF
  subst horder
  have hfst : (Abi.allProviders r).enum.map (·.1) =
      List.range (Abi.allProviders r).length := List.enum_map_fst _
  have hrange : (rounds.flatten).Perm (List.range (Abi.allProviders r).length) :=
    hfst ▸ hperm
  refine ⟨hrange, fun i j hdep => ?_⟩
  have hj_len : j < (Abi.allProviders r).length := by
    obtain ⟨p, hp, -⟩ := hdep
    obtain ⟨hlt, -⟩ := List.get?_eq_some.mp hp
    exact hlt
  have hi_len : i < (Abi.allProviders r).length := by
    obtain ⟨p, hp, inp, hinp, hiprod⟩ := hdep
    obtain ⟨p', hp', -⟩ := Abi.mem_producersOf.mp hiprod
    obtain ⟨hlt, -⟩ := List.get?_eq_some.mp hp'
    exact hlt
  have hi_mem : i ∈ rounds.flatten := hrange.mem_iff.mpr (List.mem_range.mpr hi_len)
  have hj_mem : j ∈ rounds.flatten := hrange.mem_iff.mpr (List.mem_range.mpr hj_len)
  have hne : i ≠ j := by
    intro he
    subst he
    exact hirrF i hi_mem hdep
  have ha : rounds.flatten.indexOf i < rounds.flatten.length :=
    List.indexOf_lt_length.mpr hi_mem
  have hb : rounds.flatten.indexOf j < rounds.flatten.length :=
    List.indexOf_lt_length.mpr hj_mem
  by_contra hcon
  push_neg at hcon
  rcases Nat.eq_or_lt_of_le hcon with heq | hlt
  · apply hne
    have h1 := List.indexOf_get ha
    have h2 := List.indexOf_get hb
    rw [← h1, ← h2]
    congr 1
    exact Fin.mk_eq_mk.mpr heq.symm
  · have hpg := List.pairwise_iff_get.mp hpairF
      ⟨rounds.flatten.indexOf j, hb⟩ ⟨rounds.flatten.indexOf i, ha⟩
      (Fin.mk_lt_mk.mpr hlt)
    rw [List.indexOf_get ha, List.indexOf_get hb] at hpg
    exact hpg hdep

/-- Witness for C2: the two-provider chain resolves to order `[0, 1]`,
which is a permutation of all indices and respects the dependency edge. -/
theorem Abi.resolve_topological_witness :
    ([0, 1] : List Nat).Perm (List.range (Abi.allProviders
      ([[⟨"m", [⟨[], [⟨Abi.Kind.service "s"⟩]⟩,
          ⟨[⟨Abi.Kind.service "s", false⟩], [⟨Abi.Kind.service "t"⟩]⟩]⟩]] :
        Abi.Registry)).length) ∧
    ∀ i j, Abi.dependsOn (Abi.allProviders
        ([[⟨"m", [⟨[], [⟨Abi.Kind.service "s"⟩]⟩,
            ⟨[⟨Abi.Kind.service "s", false⟩], [⟨Abi.Kind.service "t"⟩]⟩]⟩]] :
          Abi.Registry)) i j →
      ([0, 1] : List Nat).indexOf i < ([0, 1] : List Nat).indexOf j :=
  Abi.resolve_topological
    ([[⟨"m", [⟨[], [⟨Abi.Kind.service "s"⟩]⟩,
        ⟨[⟨Abi.Kind.service "s", false⟩], [⟨Abi.Kind.service "t"⟩]⟩]⟩]] : Abi.Registry)
    [0, 1] rfl

namespace Abi

theorem kahn_stuck (provs : List ProviderInfo) (i j : Nat) (pi pj : ProviderInfo)
    (hi : provs.get? i = some pi) (hj : provs.get? j = some pj)
    (hin_i : ∃ inp ∈ pi.inputs, j ∈ producersOf provs inp.kind)
    (hin_j : ∃ inp ∈ pj.inputs, i ∈ producersOf provs inp.kind) :
    ∀ (fuel : Nat) (pending : List (Nat × ProviderInfo)) (resolved : List Nat),
      (∀ q ∈ pending, provs.get? q.1 = some q.2) →
      (i, pi) ∈ pending → (j, pj) ∈ pending →
      i ∉ resolved → j ∉ resolved →
      ∃ rem, kahnRounds provs fuel pending resolved = .error (.cyclic rem) ∧
        i ∈ rem ∧ j ∈ rem
  | fuel, [], resolved, _, hip, _, _, _ => absurd hip (List.not_mem_nil _)
  | 0, q :: pending, resolved, _, hip, hjp, _, _ => by
      refine ⟨(q :: pending).map (·.1), by simp [kahnRounds], ?_, ?_⟩
      · exact List.mem_map.mpr ⟨(i, pi), hip, rfl⟩
      · exact List.mem_map.mpr ⟨(j, pj), hjp, rfl⟩
  | fuel + 1, q :: pending, resolved, hcons, hip, hjp, hires, hjres => by
      have heligi : eligible provs resolved pi = false := by
        cases he : eligible provs resolved pi with
        | false => rfl
        | true =>
            obtain ⟨inp, hinp, hprod⟩ := hin_i
            have h1 := List.all_eq_true.mp he inp hinp
            have h2 := List.all_eq_true.mp h1 j hprod
            exact absurd (by simpa using h2) hjres
      have heligj : eligible provs resolved pj = false := by
        cases he : eligible provs resolved pj with
        | false => rfl
        | true =>
            obtain ⟨inp, hinp, hprod⟩ := hin_j
            have h1 := List.all_eq_true.mp he inp hinp
            have h2 := List.all_eq_true.mp h1 i hprod
            exact absurd (by simpa using h2) hires
      rw [kahnRounds]
      by_cases hemp : ((q :: pending).filter (fun x => eligible provs resolved x.2)).isEmpty
      · rw [if_pos hemp]
        refine ⟨(q :: pending).map (·.1), rfl, ?_, ?_⟩
        · exact List.mem_map.mpr ⟨(i, pi), hip, rfl⟩
        · exact List.mem_map.mpr ⟨(j, pj), hjp, rfl⟩
      · rw [if_neg hemp]
        have hip' : (i, pi) ∈ (q :: pending).filter (fun x => !(eligible provs resolved x.2)) :=
          List.mem_filter.mpr ⟨hip, by simp [heligi]⟩
        have hjp' : (j, pj) ∈ (q :: pending).filter (fun x => !(eligible provs resolved x.2)) :=
          List.mem_filter.mpr ⟨hjp, by simp [heligj]⟩
        have hnotsel : ∀ (a : Nat) (pa : ProviderInfo), provs.get? a = some pa →
            eligible provs resolved pa = false →
            a ∉ ((q :: pending).filter (fun x => eligible provs resolved x.2)).map (·.1) := by
          intro a pa hga hea hmem
          obtain ⟨q', hq', he⟩ := List.mem_map.mp hmem
          have hm := List.mem_filter.mp hq'
          have h1 : provs.get? a = some q'.2 := he ▸ hcons q' hm.1
          have h2 : q'.2 = pa := by
            have h3 := h1.symm.trans hga
            injection h3
          rw [h2] at hm
          rw [hm.2] at hea
          cases hea
        have hires' : i ∉ resolved ++
            ((q :: pending).filter (fun x => eligible provs resolved x.2)).map (·.1) := by
          rw [List.mem_append]
          rintro (hr | hs)
          · exact hires hr
          · exact hnotsel i pi hi heligi hs
        have hjres' : j ∉ resolved ++
            ((q :: pending).filter (fun x => eligible provs resolved x.2)).map (·.1) := by
          rw [List.mem_append]
          rintro (hr | hs)
          · exact hjres hr
          · exact hnotsel j pj hj heligj hs
        have hcons' : ∀ x ∈ (q :: pending).filter (fun x => !(eligible provs resolved x.2)),
            provs.get? x.1 = some x.2 := fun x hx => hcons x (List.mem_filter.mp hx).1
        obtain ⟨rem, hrem, hirem, hjrem⟩ := kahn_stuck provs i j pi pj hi hj hin_i hin_j
          fuel ((q :: pending).filter (fun x => !(eligible provs resolved x.2)))
          (resolved ++ ((q :: pending).filter (fun x => eligible provs resolved x.2)).map (·.1))
          hcons' hip' hjp' hires' hjres'
        exact ⟨rem, by rw [hrem], hirem, hjrem⟩

end Abi

/-- C3: when the producer checks pass, two providers that each declare the
other's output as a required (non-optional) input leave Kahn's algorithm
with a non-empty remainder: resolution fails with `CyclicDependencyError`
naming an unresolved set containing both providers, and linking invokes no
provider (its invocation list is empty). -/
theorem Abi.resolve_cyclic (r : Abi.Registry) (i j : Nat) (pi pj : Abi.ProviderInfo)
    (arity : Nat → Nat)
    (hdup : Abi.findDuplicateOutput (Abi.allProviders r) = none)
    (hmiss : Abi.findMissingInput (Abi.allProviders r) = none)
    (hi : (Abi.allProviders r).get? i = some pi)
    (hj : (Abi.allProviders r).get? j = some pj)
    (hin_i : ∃ inp ∈ pi.inputs, inp.optional = false ∧
      j ∈ Abi.producersOf (Abi.allProviders r) inp.kind)
    (hin_j : ∃ inp ∈ pj.inputs, inp.optional = false ∧
      i ∈ Abi.producersOf (Abi.allProviders r) inp.kind) :
    ∃ rem, Abi.resolve r = .error (.cyclic rem) ∧ i ∈ rem ∧ j ∈ rem ∧
      Abi.link r arity = ([], some (.resolveFailed (.cyclic rem))) := by
  have hin_i' : ∃ inp ∈ pi.inputs, j ∈ Abi.producersOf (Abi.allProviders r) inp.kind := by
    obtain ⟨inp, hinp, -, hprod⟩ := hin_i
    exact ⟨inp, hinp, hprod⟩
  have hin_j' : ∃ inp ∈ pj.inputs, i ∈ Abi.producersOf (Abi.allProviders r) inp.kind := by
    obtain ⟨inp, hinp, -, hprod⟩ := hin_j
    exact ⟨inp, hinp, hprod⟩
  have hcons : ∀ q ∈ (Abi.allProviders r).enum,
      (Abi.allProviders r).get? q.1 = some q.2 := by
    intro q hq
    simpa using List.mem_enum_iff_get?.mp hq
  obtain ⟨rem, hrem, hirem, hjrem⟩ := Abi.kahn_stuck (Abi.allProviders r) i j pi pj hi hj
    hin_i' hin_j' (Abi.allProviders r).length (Abi.allProviders r).enum []
    hcons (List.mem_enum_iff_get?.mpr (by simpa using hi))
    (List.mem_enum_iff_get?.mpr (by simpa using hj)) (by simp) (by simp)
  have hres : Abi.resolve r = .error (.cyclic rem) := by
    rw [Abi.resolve, Abi.resolveProviders, hdup, hmiss, hrem]
  exact ⟨rem, hres, hirem, hjrem, by simp [Abi.link, hres]⟩

/-- Witness for C3: two providers, each requiring the service the other
produces. -/
theorem Abi.resolve_cyclic_witness :
    ∃ rem, Abi.resolve
        ([[⟨"m", [⟨[⟨Abi.Kind.service "b", false⟩], [⟨Abi.Kind.service "a"⟩]⟩,
            ⟨[⟨Abi.Kind.service "a", false⟩], [⟨Abi.Kind.service "b"⟩]⟩]⟩]] : Abi.Registry) =
      .error (.cyclic rem) ∧ 0 ∈ rem ∧ 1 ∈ rem ∧
      Abi.link ([[⟨"m", [⟨[⟨Abi.Kind.service "b", false⟩], [⟨Abi.Kind.service "a"⟩]⟩,
          ⟨[⟨Abi.Kind.service "a", false⟩], [⟨Abi.Kind.service "b"⟩]⟩]⟩]] : Abi.Registry)
        (fun _ => 0) = ([], some (.resolveFailed (.cyclic rem))) :=
  Abi.resolve_cyclic _ 0 1
    ⟨[⟨Abi.Kind.service "b", false⟩], [⟨Abi.Kind.service "a"⟩]⟩
    ⟨[⟨Abi.Kind.service "a", false⟩], [⟨Abi.Kind.service "b"⟩]⟩
    (fun _ => 0) rfl rfl rfl rfl (by decide) (by decide)
